import Mathlib

/-!
Verification of the FocalFlow compositing, alignment, playback and export
engine against its natural-language specification.

The TypeScript source is shallowly embedded: coordinates, scales, opacities
and timestamps are modelled as exact rationals, image records follow the
FocalImage interface of src/types/canvas.ts, canvas 2D calls are reified as a
list of draw operations, and the JavaScript stable Array.prototype.sort is
modelled by insertion sort (which is stable ascending for the numeric
comparators the source uses).
-/

namespace FocalFlow

/-- Point, from src/types/canvas.ts. -/
structure Point where
  x : ℚ
  y : ℚ
deriving DecidableEq

/-- Size, from src/types/canvas.ts. -/
structure Size where
  width : ℚ
  height : ℚ
deriving DecidableEq

/-- Transform, from src/types/canvas.ts: placement position, uniform scale,
rotation in radians. -/
structure Transform where
  position : Point
  scale : ℚ
  rotation : ℚ
deriving DecidableEq

/-- FocalImage, from src/types/canvas.ts.  The file handle and object URL are
opaque to the engine logic (the url is only used to decode the raster, which
we model through a separate loaded-size map), so they are omitted here. -/
structure FocalImage where
  id : String
  naturalSize : Size
  transform : Transform
  focalPoint : Option Point
  opacity : ℚ
  timestamp : ℚ
  imageZoom : ℚ
  imageOffset : Point
  zIndex : ℚ
deriving DecidableEq

/-- Viewport, from src/types/canvas.ts. -/
structure Viewport where
  position : Point
  zoom : ℚ
  size : Size
deriving DecidableEq

/-- Comparator used by the source at several places:
[...images].sort((a, b) => a.timestamp - b.timestamp). -/
def tsLE : FocalImage → FocalImage → Prop := fun a b => a.timestamp ≤ b.timestamp

instance : DecidableRel tsLE := fun a b =>
  inferInstanceAs (Decidable (a.timestamp ≤ b.timestamp))

/-- Comparator of the stacking sort: sort((a, b) => a.zIndex - b.zIndex). -/
def zLE : FocalImage → FocalImage → Prop := fun a b => a.zIndex ≤ b.zIndex

instance : DecidableRel zLE := fun a b =>
  inferInstanceAs (Decidable (a.zIndex ≤ b.zIndex))

/-- JavaScript Array.prototype.sort is stable; with the ascending numeric
comparator on timestamps it computes the stable ascending sort, which
insertion sort implements. -/
def sortByTimestamp (l : List FocalImage) : List FocalImage :=
  List.insertionSort tsLE l

/-- Stable ascending sort by zIndex, as in
const sortedByZ = [...sortedImages].sort((a, b) => a.zIndex - b.zIndex). -/
def sortByZIndex (l : List FocalImage) : List FocalImage :=
  List.insertionSort zLE l

/-- The playback order of the engine: image ids by ascending temporal
ordering key (AnimationPlayer.tsx line 36; every frame indexes into this
sequence). -/
def frameSequence (images : List FocalImage) : List String :=
  (sortByTimestamp images).map fun i => i.id

/-- The stacking order of a rendered frame, bottom to top: the source sorts
the timestamp-sorted list by zIndex with the stable sort
(AnimationPlayer.tsx line 152), so zIndex ties keep their timestamp order. -/
def stackOrder (images : List FocalImage) : List String :=
  (sortByZIndex (sortByTimestamp images)).map fun i => i.id

/-- Projection of an image to the data that stacking displays: id and draw
rank. -/
def idz (i : FocalImage) : String × ℚ := (i.id, i.zIndex)

/-- Comparator on projected stacking data. -/
def pzLE : String × ℚ → String × ℚ → Prop := fun p q => p.2 ≤ q.2

instance : DecidableRel pzLE := fun p q =>
  inferInstanceAs (Decidable (p.2 ≤ q.2))

/-! ## Viewport transforms, src/components/ExpandableCanvas.tsx lines 78-92 -/

/-- worldToScreen, ExpandableCanvas.tsx lines 79-84. -/
def worldToScreen (v : Viewport) (p : Point) : Point :=
  ⟨(p.x - v.position.x) * v.zoom + v.size.width / 2,
   (p.y - v.position.y) * v.zoom + v.size.height / 2⟩

/-- screenToWorld, ExpandableCanvas.tsx lines 87-92. -/
def screenToWorld (v : Viewport) (p : Point) : Point :=
  ⟨(p.x - v.size.width / 2) / v.zoom + v.position.x,
   (p.y - v.size.height / 2) / v.zoom + v.position.y⟩

/-! ## Alignment engine, src/utils/alignment.ts -/

/-- AlignmentResult, from src/utils/alignment.ts. -/
structure AlignmentResult where
  imageId : String
  transform : Transform
deriving DecidableEq

/-- World-space location of a focal point under a placement transform, the
formula of calculateAlignments (alignment.ts lines 147-152):
position + (focalPoint - naturalSize / 2) * scale. -/
def focalWorldAt (t : Transform) (sz : Size) (fp : Point) : Point :=
  ⟨t.position.x + (fp.x - sz.width / 2) * t.scale,
   t.position.y + (fp.y - sz.height / 2) * t.scale⟩

/-- calculateAlignments, src/utils/alignment.ts lines 134-191.  The source
filters to images with a focal point, returns [] when fewer than two remain,
takes the first filtered image (array order) as reference, and solves every
other participating position against the reference focal point's world
location.  The source reads referenceImage.focalPoint! after the filter; that
non-null assertion is modelled by getD, whose default is unreachable. -/
def calculateAlignments (images : List FocalImage) : List AlignmentResult :=
  let imagesWithFocalPoints := images.filter fun img => img.focalPoint.isSome
  if imagesWithFocalPoints.length < 2 then []
  else
    match imagesWithFocalPoints with
    | [] => []
    | referenceImage :: rest =>
      let referenceWorldPoint :=
        focalWorldAt referenceImage.transform referenceImage.naturalSize
          (referenceImage.focalPoint.getD ⟨0, 0⟩)
      ⟨referenceImage.id, referenceImage.transform⟩ ::
        rest.filterMap fun image =>
          image.focalPoint.map fun fp =>
            let focalOffset : Point :=
              ⟨(fp.x - image.naturalSize.width / 2) * image.transform.scale,
               (fp.y - image.naturalSize.height / 2) * image.transform.scale⟩
            ⟨image.id,
             { image.transform with
                position := ⟨referenceWorldPoint.x - focalOffset.x,
                             referenceWorldPoint.y - focalOffset.y⟩ }⟩

/-- Lookup in the JavaScript Map built by
new Map(alignments.map(a => [a.imageId, a])): insertion iterates the list in
order and later entries overwrite earlier ones, so get returns the last entry
with the key. -/
def alignmentLookup (alignments : List AlignmentResult) (id : String) :
    Option AlignmentResult :=
  alignments.reverse.find? fun a => a.imageId == id

/-- autoAlignImages, src/utils/alignment.ts lines 193-214. -/
def autoAlignImages (images : List FocalImage) : List FocalImage :=
  let alignments := calculateAlignments images
  if alignments.length = 0 then images
  else
    images.map fun image =>
      match alignmentLookup alignments image.id with
      | some alignment => { image with transform := alignment.transform }
      | none => image

/-- The solved alignment entry calculateAlignments pushes for a non-reference
participating image: same id, same transform except that the position is
re-solved so the image's focal point fp meets the reference focal point's
world location. -/
def solvedAlignment (ref image : FocalImage) (fp : Point) : AlignmentResult :=
  ⟨image.id,
   { image.transform with
      position :=
        ⟨(focalWorldAt ref.transform ref.naturalSize
              (ref.focalPoint.getD ⟨0, 0⟩)).x
            - (fp.x - image.naturalSize.width / 2) * image.transform.scale,
         (focalWorldAt ref.transform ref.naturalSize
              (ref.focalPoint.getD ⟨0, 0⟩)).y
            - (fp.y - image.naturalSize.height / 2) * image.transform.scale⟩ }⟩

/-- The per-image application step of autoAlignImages: look the image id up
in the alignment map and replace the transform on a hit. -/
def applyOne (alignments : List AlignmentResult) (image : FocalImage) :
    FocalImage :=
  match alignmentLookup alignments image.id with
  | some alignment => { image with transform := alignment.transform }
  | none => image

/-- The map phase of autoAlignImages, factored for reasoning. -/
def applyAlignments (alignments : List AlignmentResult)
    (images : List FocalImage) : List FocalImage :=
  images.map (applyOne alignments)

/-! ## Reified canvas 2D operations

Every renderer under verification issues a straight-line sequence of canvas
calls per frame; we reify those calls as a list of operations so composites
can be compared syntactically. -/

/-- One canvas 2D call, in source order. -/
inductive CanvasOp where
  | fillRect (color : String) (x y w h : ℚ)
  | save
  | restore
  | translate (x y : ℚ)
  | rotate (r : ℚ)
  | scaleXY (sx sy : ℚ)
  | setAlpha (a : ℚ)
  | clipRect (x y w h : ℚ)
  | drawImage (id : String) (x y w h : ℚ)
  | fillTextOp (text : String) (x y : ℚ)
deriving DecidableEq

/-- A map from image id to the decoded raster's pixel size, modelling the
loadedImages maps (HTMLImageElement width/height once decode finished);
none means the raster has not loaded. -/
def LoadedMap := String → Option Size

/-- Axis-aligned bounding data returned by calculateBounds. -/
structure Bounds where
  center : Point
  width : ℚ
  height : ℚ
deriving DecidableEq

/-- The min/max fold of calculateBounds (AnimationPlayer.tsx lines 39-60 and
exportUtils.ts lines 274-295): images without a loaded raster are skipped;
none models the Infinity initial accumulator surviving (no loaded image), in
which case the source would compute NaN geometry. -/
def boundsFold (loaded : LoadedMap) (imgs : List FocalImage) :
    Option (ℚ × ℚ × ℚ × ℚ) :=
  imgs.foldl
    (fun acc img =>
      match loaded img.id with
      | none => acc
      | some sz =>
        let halfWidth := sz.width * img.transform.scale / 2
        let halfHeight := sz.height * img.transform.scale / 2
        let lox := img.transform.position.x - halfWidth
        let hix := img.transform.position.x + halfWidth
        let loy := img.transform.position.y - halfHeight
        let hiy := img.transform.position.y + halfHeight
        match acc with
        | none => some (lox, hix, loy, hiy)
        | some (minX, maxX, minY, maxY) =>
          some (min minX lox, max maxX hix, min minY loy, max maxY hiy))
    none

/-- Trail configuration as passed to the player and the GIF exporter. -/
structure TrailConfig where
  motionTrails : Bool
  trailLength : Nat
  trailOpacity : ℚ
deriving DecidableEq

/-- JavaScript arr.slice(-n): the last n elements for n > 0, and the whole
array for n = 0 (slice(-0) is slice(0)). -/
def sliceLast (n : Nat) (l : List Nat) : List Nat :=
  if n = 0 then l else l.drop (l.length - n)

namespace Player

/-- calculateBounds, AnimationPlayer.tsx lines 39-60. -/
def calculateBounds (loaded : LoadedMap) (imgs : List FocalImage) :
    Option Bounds :=
  (boundsFold loaded imgs).map fun acc =>
    match acc with
    | (minX, maxX, minY, maxY) =>
      ⟨⟨(minX + maxX) / 2, (minY + maxY) / 2⟩, maxX - minX, maxY - minY⟩

/-- renderImage, AnimationPlayer.tsx lines 76-107: skip when not loaded or
alpha is 0; otherwise translate to the placement position, rotate, scale,
set global alpha, clip to the natural frame, draw the raster scaled by the
internal zoom and shifted by the internal offset.  JavaScript
img.imageZoom || 1 maps a zero zoom to 1. -/
def renderImage (loaded : LoadedMap) (img : FocalImage) (alpha : ℚ) :
    List CanvasOp :=
  match loaded img.id with
  | none => []
  | some sz =>
    if alpha = 0 then []
    else
      let zoom := if img.imageZoom = 0 then 1 else img.imageZoom
      let offset := img.imageOffset
      [CanvasOp.save,
       CanvasOp.translate img.transform.position.x img.transform.position.y,
       CanvasOp.rotate img.transform.rotation,
       CanvasOp.scaleXY img.transform.scale img.transform.scale,
       CanvasOp.setAlpha (alpha * img.opacity),
       CanvasOp.clipRect (-(sz.width / 2)) (-(sz.height / 2)) sz.width sz.height,
       CanvasOp.drawImage img.id
         (-(sz.width * zoom / 2) + offset.x)
         (-(sz.height * zoom / 2) + offset.y)
         (sz.width * zoom) (sz.height * zoom),
       CanvasOp.restore]

/-- The trail slice frameHistoryRef.current.slice(-trailLength) of
AnimationPlayer.tsx line 141. -/
def trailFrames (hist : List Nat) (trailLength : Nat) : List Nat :=
  sliceLast trailLength hist

/-- The composite part of renderFrame, AnimationPlayer.tsx lines 109-168
(everything up to and including ctx.restore(); the frame-counter text drawn
afterwards is the preview-only overlay, see overlayOps).  Returns some [] when
the image list is empty (the source returns before drawing), and none when no
raster is loaded (the source would compute NaN geometry from the Infinity
bounds; both renderers under comparison share this degenerate path). -/
def frameOps (loaded : LoadedMap) (images : List FocalImage)
    (frameIndex : Nat) (transitionAmount : ℚ) (hist : List Nat)
    (cfg : TrailConfig) (W H : ℚ) : Option (List CanvasOp) :=
  let sortedImages := sortByTimestamp images
  match sortedImages with
  | [] => some []
  | s0 :: _ =>
    match calculateBounds loaded sortedImages with
    | none => none
    | some bounds =>
      let padding : ℚ := 50
      let scaleX := (W - padding * 2) / bounds.width
      let scaleY := (H - padding * 2) / bounds.height
      let scale := min (min scaleX scaleY) 1
      let currentImage := sortedImages.getD (frameIndex % sortedImages.length) s0
      let nextIndex := (frameIndex + 1) % sortedImages.length
      let nextImage := sortedImages.getD nextIndex s0
      let trailOps :=
        if cfg.motionTrails ∧ 0 < hist.length then
          (trailFrames hist cfg.trailLength).enum.flatMap fun pair =>
            match pair with
            | (idx, historicFrame) =>
              if historicFrame ≠ frameIndex then
                let trailImage :=
                  sortedImages.getD (historicFrame % sortedImages.length) s0
                let trailAlpha :=
                  cfg.trailOpacity * ((idx : ℚ) + 1) / (cfg.trailLength : ℚ) * (1/2)
                renderImage loaded trailImage trailAlpha
              else []
        else []
      let sortedByZ := sortByZIndex sortedImages
      let mainOps := sortedByZ.flatMap fun img =>
        let alpha : ℚ :=
          if img.id = currentImage.id then
            (if transitionAmount = 0 then 1 else 1 - transitionAmount)
          else if 0 < transitionAmount ∧ img.id = nextImage.id then
            transitionAmount
          else 0
        if 0 < alpha then renderImage loaded img alpha else []
      some ([CanvasOp.fillRect "#1f2937" 0 0 W H,
             CanvasOp.save,
             CanvasOp.translate (W / 2) (H / 2),
             CanvasOp.scaleXY scale scale,
             CanvasOp.translate (-bounds.center.x) (-bounds.center.y)]
            ++ trailOps ++ mainOps ++ [CanvasOp.restore])

/-- The frame-indicator overlay drawn after the composite,
AnimationPlayer.tsx lines 170-176 (preview surface only). -/
def overlayOps (frameIndex len : Nat) (motionTrails : Bool) : List CanvasOp :=
  [CanvasOp.fillTextOp
      ("Frame " ++ toString (frameIndex + 1) ++ "/" ++ toString len) 10 20]
  ++ (if motionTrails then [CanvasOp.fillTextOp "Motion Trails: ON" 10 35] else [])

/-- Full renderFrame output: composite followed by the overlay. -/
def renderOps (loaded : LoadedMap) (images : List FocalImage)
    (frameIndex : Nat) (transitionAmount : ℚ) (hist : List Nat)
    (cfg : TrailConfig) (W H : ℚ) : Option (List CanvasOp) :=
  (frameOps loaded images frameIndex transitionAmount hist cfg W H).map
    fun ops =>
      ops ++ overlayOps frameIndex (sortByTimestamp images).length cfg.motionTrails

/-- The frame-history update of the playback loop, AnimationPlayer.tsx line
200: frameHistoryRef.current = [...history, currentFrame].slice(-trailLength). -/
def updateHistory (hist : List Nat) (currentFrame : Nat) (trailLength : Nat) :
    List Nat :=
  sliceLast trailLength (hist ++ [currentFrame])

end Player

namespace WebmExport

/-- The per-frame render of exportToWebM, exportUtils.ts lines 100-131: fill
the background, then draw the raster centered at 80 percent of the fit scale
at the image's own opacity.  No placement transform, no clipping, no internal
zoom/offset. -/
def frameOps (img : FocalImage) (sz : Size) (W H : ℚ) : List CanvasOp :=
  let scale := min (W / sz.width) (H / sz.height) * (8/10)
  let x := (W - sz.width * scale) / 2
  let y := (H - sz.height * scale) / 2
  [CanvasOp.fillRect "#1f2937" 0 0 W H,
   CanvasOp.setAlpha img.opacity,
   CanvasOp.drawImage img.id x y (sz.width * scale) (sz.height * scale)]

end WebmExport

namespace ZipExport

/-- The per-frame render of exportFramesAsZip, exportUtils.ts lines 180-193:
the same centered draw as the WebM path (the source duplicates it). -/
def frameOps (img : FocalImage) (sz : Size) (W H : ℚ) : List CanvasOp :=
  let scale := min (W / sz.width) (H / sz.height) * (8/10)
  let x := (W - sz.width * scale) / 2
  let y := (H - sz.height * scale) / 2
  [CanvasOp.fillRect "#1f2937" 0 0 W H,
   CanvasOp.setAlpha img.opacity,
   CanvasOp.drawImage img.id x y (sz.width * scale) (sz.height * scale)]

end ZipExport

/-- Math.round: round half toward positive infinity. -/
def jsRound (q : ℚ) : ℤ := ⌊q + 1/2⌋

namespace GifExport

/-- calculateBounds of exportToGIF, exportUtils.ts lines 274-295 (the source
duplicates the player's function; here every image is loaded once
Promise.all resolved, but the guard is kept as written). -/
def calculateBounds (loaded : LoadedMap) (imgs : List FocalImage) :
    Option Bounds :=
  (boundsFold loaded imgs).map fun acc =>
    match acc with
    | (minX, maxX, minY, maxY) =>
      ⟨⟨(minX + maxX) / 2, (minY + maxY) / 2⟩, maxX - minX, maxY - minY⟩

/-- renderImage of exportToGIF, exportUtils.ts lines 298-329 (duplicated from
the player). -/
def renderImage (loaded : LoadedMap) (img : FocalImage) (alpha : ℚ) :
    List CanvasOp :=
  match loaded img.id with
  | none => []
  | some sz =>
    if alpha = 0 then []
    else
      let zoom := if img.imageZoom = 0 then 1 else img.imageZoom
      let offset := img.imageOffset
      [CanvasOp.save,
       CanvasOp.translate img.transform.position.x img.transform.position.y,
       CanvasOp.rotate img.transform.rotation,
       CanvasOp.scaleXY img.transform.scale img.transform.scale,
       CanvasOp.setAlpha (alpha * img.opacity),
       CanvasOp.clipRect (-(sz.width / 2)) (-(sz.height / 2)) sz.width sz.height,
       CanvasOp.drawImage img.id
         (-(sz.width * zoom / 2) + offset.x)
         (-(sz.height * zoom / 2) + offset.y)
         (sz.width * zoom) (sz.height * zoom),
       CanvasOp.restore]

/-- frameHistory.slice(-trailLength), exportUtils.ts line 357. -/
def trailFrames (hist : List Nat) (trailLength : Nat) : List Nat :=
  sliceLast trailLength hist

/-- One iteration of the export loop body, exportUtils.ts lines 343-377
(clear, global fitting transform, motion trails, z-sorted draw of the
current image at full opacity, restore).  The source computes the bounds and
fit scale once before the loop; the values are identical for every frame, so
they are recomputed here.  The empty branch is unreachable: the loop runs
only for frameIndex < sortedImages.length. -/
def frameOps (loaded : LoadedMap) (images : List FocalImage)
    (frameIndex : Nat) (hist : List Nat) (cfg : TrailConfig) (W H : ℚ) :
    Option (List CanvasOp) :=
  let sortedImages := sortByTimestamp images
  match sortedImages with
  | [] => some []
  | s0 :: _ =>
    match calculateBounds loaded sortedImages with
    | none => none
    | some bounds =>
      let padding : ℚ := 50
      let scaleX := (W - padding * 2) / bounds.width
      let scaleY := (H - padding * 2) / bounds.height
      let scale := min (min scaleX scaleY) 1
      let currentImage := sortedImages.getD (frameIndex % sortedImages.length) s0
      let trailOps :=
        if cfg.motionTrails ∧ 0 < hist.length then
          (trailFrames hist cfg.trailLength).enum.flatMap fun pair =>
            match pair with
            | (idx, historicFrame) =>
              if historicFrame ≠ frameIndex then
                let trailImage :=
                  sortedImages.getD (historicFrame % sortedImages.length) s0
                let trailAlpha :=
                  cfg.trailOpacity * ((idx : ℚ) + 1) / (cfg.trailLength : ℚ) * (1/2)
                renderImage loaded trailImage trailAlpha
              else []
        else []
      let sortedByZ := sortByZIndex sortedImages
      let mainOps := sortedByZ.flatMap fun img =>
        if img.id = currentImage.id then renderImage loaded img 1 else []
      some ([CanvasOp.fillRect "#1f2937" 0 0 W H,
             CanvasOp.save,
             CanvasOp.translate (W / 2) (H / 2),
             CanvasOp.scaleXY scale scale,
             CanvasOp.translate (-bounds.center.x) (-bounds.center.y)]
            ++ trailOps ++ mainOps ++ [CanvasOp.restore])

/-- The frame-history update of the export loop, exportUtils.ts lines
379-383: push the index, then shift the oldest entry once the length exceeds
trailLength. -/
def updateHistory (hist : List Nat) (frameIndex : Nat) (trailLength : Nat) :
    List Nat :=
  let h := hist ++ [frameIndex]
  if trailLength < h.length then h.tail else h

/-- The embedded per-frame delay, exportUtils.ts line 386:
Math.max(100, Math.round(1000 / fps)). -/
def frameDelay (fps : ℚ) : ℚ := max 100 (jsRound (1000 / fps))

/-- The rendering half of the export loop of exportToGIF: for each frame
index, the frame composite handed to gif.addFrame, the embedded delay, and
the progress value (frameIndex + 1) / length * 0.8 reported after the frame
is added (exportUtils.ts lines 343-392). -/
def renderLoop (loaded : LoadedMap) (images : List FocalImage)
    (cfg : TrailConfig) (fps W H : ℚ) (hist : List Nat) :
    List Nat → List (Option (List CanvasOp)) × List ℚ × List ℚ
  | [] => ([], [], [])
  | frameIndex :: rest =>
    let ops := frameOps loaded images frameIndex hist cfg W H
    let hist2 := updateHistory hist frameIndex cfg.trailLength
    let out := renderLoop loaded images cfg fps W H hist2 rest
    (ops :: out.1,
     frameDelay fps :: out.2.1,
     ((frameIndex : ℚ) + 1) / ((sortByTimestamp images).length : ℚ) * (8/10)
       :: out.2.2)

/-- The observable rendering behaviour of exportToGIF (exportUtils.ts lines
219-423): frames added to the encoder, their embedded delays, and the
render-phase progress reports, in order.  The encoder's own progress events
are reported through encoderProgress. -/
def exportRun (loaded : LoadedMap) (images : List FocalImage)
    (cfg : TrailConfig) (fps W H : ℚ) :
    List (Option (List CanvasOp)) × List ℚ × List ℚ :=
  renderLoop loaded images cfg fps W H []
    (List.range (sortByTimestamp images).length)

/-- The encoding-phase progress handler, exportUtils.ts lines 400-404:
a gif.js progress event p is reported as 0.8 + p * 0.2. -/
def encoderProgress (p : ℚ) : ℚ := 8/10 + p * (2/10)

end GifExport

/-! ## Concrete inputs used by witnesses and counterexamples -/

/-- Reference image of the spec's concrete alignment scenario: 100x100,
focal point (50,50), position (0,0), scale 1, temporal key 0. -/
def c2ref : FocalImage :=
  ⟨"r", ⟨100, 100⟩, ⟨⟨0, 0⟩, 1, 0⟩, some ⟨50, 50⟩, 1, 0, 1, ⟨0, 0⟩, 0⟩

/-- Second scenario image: focal point (20,20). -/
def c2img2 : FocalImage :=
  ⟨"b", ⟨100, 100⟩, ⟨⟨0, 0⟩, 1, 0⟩, some ⟨20, 20⟩, 1, 1, 1, ⟨0, 0⟩, 0⟩

/-- Third scenario image: focal point (80,80). -/
def c2img3 : FocalImage :=
  ⟨"c", ⟨100, 100⟩, ⟨⟨0, 0⟩, 1, 0⟩, some ⟨80, 80⟩, 1, 2, 1, ⟨0, 0⟩, 0⟩

/-- The three-image alignment scenario of the spec. -/
def c2images : List FocalImage := [c2ref, c2img2, c2img3]

/-- A single placed image used to compare export renderers with the player. -/
def c1img : FocalImage :=
  ⟨"a", ⟨100, 100⟩, ⟨⟨10, 0⟩, 1, 0⟩, none, 1, 0, 1, ⟨0, 0⟩, 0⟩

/-- Loaded-raster map for c1img. -/
def c1loaded : LoadedMap := fun s => if s = "a" then some ⟨100, 100⟩ else none

/-- Trail configuration with motion trails disabled (the defaults). -/
def c1cfg : TrailConfig := ⟨false, 3, 3/10⟩

/-- An image without a focal point, for the insufficient-anchors witness. -/
def c4img : FocalImage :=
  ⟨"n", ⟨100, 100⟩, ⟨⟨5, 6⟩, 1, 0⟩, none, 1, 0, 1, ⟨0, 0⟩, 0⟩

/-- Five images for the export scenario, temporal keys 0..4. -/
def c7images : List FocalImage :=
  [⟨"a", ⟨10, 10⟩, ⟨⟨0, 0⟩, 1, 0⟩, none, 1, 0, 1, ⟨0, 0⟩, 0⟩,
   ⟨"b", ⟨10, 10⟩, ⟨⟨1, 0⟩, 1, 0⟩, none, 1, 1, 1, ⟨0, 0⟩, 0⟩,
   ⟨"c", ⟨10, 10⟩, ⟨⟨2, 0⟩, 1, 0⟩, none, 1, 2, 1, ⟨0, 0⟩, 0⟩,
   ⟨"d", ⟨10, 10⟩, ⟨⟨3, 0⟩, 1, 0⟩, none, 1, 3, 1, ⟨0, 0⟩, 0⟩,
   ⟨"e", ⟨10, 10⟩, ⟨⟨4, 0⟩, 1, 0⟩, none, 1, 4, 1, ⟨0, 0⟩, 0⟩]

/-- Loaded-raster map for c7images. -/
def c7loaded : LoadedMap := fun _ => some ⟨10, 10⟩

/-- First image by array position, but temporally second (timestamp 5). -/
def c3A : FocalImage :=
  ⟨"a", ⟨10, 10⟩, ⟨⟨10, 10⟩, 1, 0⟩, some ⟨0, 0⟩, 1, 5, 1, ⟨0, 0⟩, 0⟩

/-- Second image by array position, but temporally first (timestamp 1). -/
def c3B : FocalImage :=
  ⟨"b", ⟨10, 10⟩, ⟨⟨0, 0⟩, 1, 0⟩, some ⟨0, 0⟩, 1, 1, 1, ⟨0, 0⟩, 0⟩

/-- Image "a" at timestamp 0 overlapping image "b", same draw rank 0. -/
def c9X : FocalImage :=
  ⟨"a", ⟨10, 10⟩, ⟨⟨0, 0⟩, 1, 0⟩, none, 1, 0, 1, ⟨0, 0⟩, 0⟩

/-- Image "a" after changing only its temporal key from 0 to 2. -/
def c9X2 : FocalImage :=
  ⟨"a", ⟨10, 10⟩, ⟨⟨0, 0⟩, 1, 0⟩, none, 1, 2, 1, ⟨0, 0⟩, 0⟩

/-- Image "b" at timestamp 1, same position, size and draw rank as "a". -/
def c9Y : FocalImage :=
  ⟨"b", ⟨10, 10⟩, ⟨⟨0, 0⟩, 1, 0⟩, none, 1, 1, 1, ⟨0, 0⟩, 0⟩

/-- A frame-settings modification: new internal zoom, internal offset and
opacity, everything else untouched. -/
def c10mod (im : FocalImage) : FocalImage :=
  { im with imageZoom := 7, imageOffset := ⟨3, 4⟩, opacity := 1/2 }

/-- Image "a" after changing only its draw rank from 0 to 5. -/
def c9Xz : FocalImage :=
  ⟨"a", ⟨10, 10⟩, ⟨⟨0, 0⟩, 1, 0⟩, none, 1, 0, 1, ⟨0, 0⟩, 5⟩

/-! ## Theorems -/

/-- flatMap respects pointwise equality of the mapped function. -/
theorem flatMap_ext {α β : Type} (l : List α) (f g : α → List β)
    (h : ∀ a, f a = g a) : l.flatMap f = l.flatMap g := by
  rw [funext h]

/-- C6: for every viewport snapshot with nonzero zoom and every point p,
worldToScreen and screenToWorld are exact inverses (exact over the rational
embedding of the arithmetic of ExpandableCanvas.tsx lines 78-92). -/
theorem world_screen_inverse (v : Viewport) (p : Point) (hz : v.zoom ≠ 0) :
    worldToScreen v (screenToWorld v p) = p ∧
    screenToWorld v (worldToScreen v p) = p := by
  obtain ⟨px, py⟩ := p
  constructor
  · simp only [worldToScreen, screenToWorld, Point.mk.injEq]
    constructor <;> (field_simp; try ring)
  · simp only [worldToScreen, screenToWorld, Point.mk.injEq]
    constructor <;> (field_simp; try ring)

/-- Witness for world_screen_inverse at a concrete viewport and point. -/
theorem world_screen_inverse_witness :
    (Viewport.mk ⟨1, 2⟩ 2 ⟨100, 50⟩).zoom ≠ 0 ∧
    (worldToScreen ⟨⟨1, 2⟩, 2, ⟨100, 50⟩⟩
        (screenToWorld ⟨⟨1, 2⟩, 2, ⟨100, 50⟩⟩ ⟨3, 4⟩) = ⟨3, 4⟩ ∧
      screenToWorld ⟨⟨1, 2⟩, 2, ⟨100, 50⟩⟩
        (worldToScreen ⟨⟨1, 2⟩, 2, ⟨100, 50⟩⟩ ⟨3, 4⟩) = ⟨3, 4⟩) :=
  ⟨by decide, world_screen_inverse ⟨⟨1, 2⟩, 2, ⟨100, 50⟩⟩ ⟨3, 4⟩ (by decide)⟩

/-- C4: with fewer than two marked focal points, alignment is a no-op:
calculateAlignments reports the insufficient-anchor condition by returning
the empty alignment list (the only failure signal the source emits), and
autoAlignImages returns the image list itself, every record unchanged. -/
theorem insufficient_anchors_noop (images : List FocalImage)
    (h : (images.filter fun img => img.focalPoint.isSome).length < 2) :
    calculateAlignments images = [] ∧ autoAlignImages images = images := by
  have h1 : calculateAlignments images = [] := by
    simp only [calculateAlignments]
    rw [if_pos h]
  refine ⟨h1, ?_⟩
  simp [autoAlignImages, h1]

/-- Witness for insufficient_anchors_noop on a one-image list. -/
theorem insufficient_anchors_noop_witness :
    (([c4img].filter fun img => img.focalPoint.isSome).length < 2) ∧
    (calculateAlignments [c4img] = [] ∧ autoAlignImages [c4img] = [c4img]) :=
  ⟨by decide, insufficient_anchors_noop [c4img] (by decide)⟩

/-- C2 counterexample: in the spec's three-image scenario every focal point
lands at world point (0,0) — the reference image's focal world location under
the code's own world-coordinate formula — not at (50,50) as claimed. -/
theorem scenario_world_point_not_fifty :
    ((autoAlignImages c2images).map fun img =>
        focalWorldAt img.transform img.naturalSize (img.focalPoint.getD ⟨0, 0⟩))
      = [⟨0, 0⟩, ⟨0, 0⟩, ⟨0, 0⟩] ∧ (⟨0, 0⟩ : Point) ≠ ⟨50, 50⟩ := by
  with_unfolding_all decide

/-- C2 amended: in the scenario the second image's position resolves to
(30,30) and the third's to (-30,-30), and every focal point maps to the
shared world anchor (0,0), the reference focal point's world location. -/
theorem scenario_positions_and_anchor :
    (autoAlignImages c2images).map (fun img => img.transform.position)
        = [⟨0, 0⟩, ⟨30, 30⟩, ⟨-30, -30⟩] ∧
    ∀ img ∈ autoAlignImages c2images,
      focalWorldAt img.transform img.naturalSize (img.focalPoint.getD ⟨0, 0⟩)
        = ⟨0, 0⟩ := by
  with_unfolding_all decide

/-- C1 counterexample: at a concrete single-image input the WebM export's
frame composite and the frame-sequence export's frame composite both differ
from the playback renderer's composite for the same frame: the export paths
draw the raster centered at 80 percent fit scale with no placement
transform, no frame clipping and no internal zoom/offset. -/
theorem webm_zip_composite_ne_player :
    some (WebmExport.frameOps c1img ⟨100, 100⟩ 400 400)
        ≠ Player.frameOps c1loaded [c1img] 0 0 [] c1cfg 400 400 ∧
    some (ZipExport.frameOps c1img ⟨100, 100⟩ 400 400)
        ≠ Player.frameOps c1loaded [c1img] 0 0 [] c1cfg 400 400 := by
  with_unfolding_all decide

/-- C1 amended: the GIF export's per-frame composite walks the identical
logic as the playback renderer — same fitting-viewport computation, same
trail rules, same placement/clipping/zoom-offset drawing — and equals the
player's composite at zero transition blend for every input (the player's
preview-only frame-counter overlay aside); surface size is a shared
parameter, so the two differ only in surface resolution. -/
theorem gif_composite_eq_player_composite (loaded : LoadedMap)
    (images : List FocalImage) (frameIndex : Nat) (hist : List Nat)
    (cfg : TrailConfig) (W H : ℚ) :
    GifExport.frameOps loaded images frameIndex hist cfg W H
      = Player.frameOps loaded images frameIndex 0 hist cfg W H := by
  have hri : GifExport.renderImage = Player.renderImage := rfl
  have hcb : GifExport.calculateBounds = Player.calculateBounds := rfl
  have htf : GifExport.trailFrames = Player.trailFrames := rfl
  simp only [GifExport.frameOps, Player.frameOps, hri, hcb, htf]
  cases sortByTimestamp images with
  | nil => rfl
  | cons s0 tl =>
    cases Player.calculateBounds loaded (s0 :: tl) with
    | none => rfl
    | some bounds =>
      simp only [Option.some.injEq]
      congr 2
      apply flatMap_ext
      intro img
      generalize ((s0 :: tl).getD (frameIndex % (s0 :: tl).length) s0).id = curId
      by_cases h : img.id = curId
      · simp [h]
      · simp [h]

/-- getLast? commutes with map. -/
theorem map_getLast? {α β : Type} (f : α → β) :
    ∀ l : List α, (l.map f).getLast? = l.getLast?.map f
  | [] => rfl
  | [_] => rfl
  | a :: b :: t => by
    rw [List.map_cons, List.map_cons, List.getLast?_cons_cons,
      List.getLast?_cons_cons, ← List.map_cons]
    exact map_getLast? f (b :: t)

/-- The delays the GIF export loop hands the encoder: one per frame index,
all equal to frameDelay fps. -/
theorem renderLoop_delays (loaded : LoadedMap) (images : List FocalImage)
    (cfg : TrailConfig) (fps W H : ℚ) :
    ∀ (idxs : List Nat) (hist : List Nat),
      (GifExport.renderLoop loaded images cfg fps W H hist idxs).2.1
        = List.replicate idxs.length (GifExport.frameDelay fps) := by
  intro idxs
  induction idxs with
  | nil => intro hist; rfl
  | cons i rest ih =>
    intro hist
    simp only [GifExport.renderLoop, List.length_cons, List.replicate_succ]
    rw [ih]

/-- The GIF export loop adds exactly one frame per index. -/
theorem renderLoop_frames_length (loaded : LoadedMap) (images : List FocalImage)
    (cfg : TrailConfig) (fps W H : ℚ) :
    ∀ (idxs : List Nat) (hist : List Nat),
      (GifExport.renderLoop loaded images cfg fps W H hist idxs).1.length
        = idxs.length := by
  intro idxs
  induction idxs with
  | nil => intro hist; rfl
  | cons i rest ih =>
    intro hist
    simp only [GifExport.renderLoop, List.length_cons]
    rw [ih]

/-- The render-phase progress reports of the GIF export loop. -/
theorem renderLoop_progress (loaded : LoadedMap) (images : List FocalImage)
    (cfg : TrailConfig) (fps W H : ℚ) :
    ∀ (idxs : List Nat) (hist : List Nat),
      (GifExport.renderLoop loaded images cfg fps W H hist idxs).2.2
        = idxs.map fun i : Nat =>
            ((i : ℚ) + 1) / ((sortByTimestamp images).length : ℚ) * (8/10) := by
  intro idxs
  induction idxs with
  | nil => intro hist; rfl
  | cons i rest ih =>
    intro hist
    simp only [GifExport.renderLoop, List.map_cons]
    rw [ih]

/-- C7 counterexample: exporting the concrete five-image list to GIF at
fps = 24 embeds a per-frame delay of 100 milliseconds in every frame — the
source floors the delay at 100 (Math.max(100, Math.round(1000 / fps))) —
not the claimed round(1000/24) = 42. -/
theorem gif_delay_is_100_not_42 :
    (GifExport.exportRun c7loaded c7images c1cfg 24 400 400).2.1
        = List.replicate 5 100 ∧ (100 : ℚ) ≠ 42 := by
  refine ⟨?_, by with_unfolding_all decide⟩
  have hlen : (sortByTimestamp c7images).length = 5 := by
    with_unfolding_all decide
  have hd : GifExport.frameDelay 24 = 100 := by with_unfolding_all decide
  simp only [GifExport.exportRun]
  rw [renderLoop_delays, List.length_range, hlen, hd]

/-- C7 amended: exporting any 5 images to GIF at fps = 24 adds exactly 5
frames to the encoder, each with embedded delay max(100, round(1000/24)) =
100 milliseconds; the render phase reports progress ending at 0.8 and the
encoder phase maps its final progress event 1 to a reported 1.0, so the
progress stream ends at 1.0. -/
theorem gif_export_five_images (loaded : LoadedMap) (images : List FocalImage)
    (cfg : TrailConfig) (W H : ℚ) (h5 : images.length = 5) :
    (GifExport.exportRun loaded images cfg 24 W H).1.length = 5 ∧
    (GifExport.exportRun loaded images cfg 24 W H).2.1
        = List.replicate 5 100 ∧
    (GifExport.exportRun loaded images cfg 24 W H).2.2.getLast? = some (4/5) ∧
    ∀ encoderReports : List ℚ, encoderReports.getLast? = some 1 →
      ((GifExport.exportRun loaded images cfg 24 W H).2.2
          ++ encoderReports.map GifExport.encoderProgress).getLast? = some 1 := by
  have hlen : (sortByTimestamp images).length = 5 :=
    (List.perm_insertionSort tsLE images).length_eq.trans h5
  have hd : GifExport.frameDelay 24 = 100 := by with_unfolding_all decide
  refine ⟨?_, ?_, ?_, ?_⟩
  · simp only [GifExport.exportRun]
    rw [renderLoop_frames_length, List.length_range, hlen]
  · simp only [GifExport.exportRun]
    rw [renderLoop_delays, List.length_range, hlen, hd]
  · simp only [GifExport.exportRun]
    rw [renderLoop_progress, hlen]
    with_unfolding_all decide
  · intro encoderReports hlast
    have hne : encoderReports.map GifExport.encoderProgress ≠ [] := by
      intro h
      rw [List.map_eq_nil_iff] at h
      rw [h] at hlast
      exact Option.noConfusion hlast
    rw [List.getLast?_append_of_ne_nil _ hne, map_getLast?, hlast]
    have h1 : GifExport.encoderProgress 1 = 1 := by with_unfolding_all decide
    rw [Option.map_some', h1]

/-- Witness for gif_export_five_images on the concrete five-image list. -/
theorem gif_export_five_images_witness :
    c7images.length = 5 ∧
    (GifExport.exportRun c7loaded c7images c1cfg 24 400 400).2.1
        = List.replicate 5 100 :=
  ⟨by decide,
   (gif_export_five_images c7loaded c7images c1cfg 400 400 (by decide)).2.1⟩

/-- Bounding the JavaScript slice(-L) for L at least 1. -/
theorem sliceLast_length_le (L : Nat) (hL : 1 ≤ L) (l : List Nat) :
    (sliceLast L l).length ≤ L := by
  unfold sliceLast
  rw [if_neg (by omega), List.length_drop]
  omega

/-- C8: for every trail length L at least 1, the motion-trail history stays
bounded by L under both history updates (the playback loop's slice(-L) and
the export loop's push-then-shift), the trail slice composited beneath the
current frame never holds more than L entries (before and after skipping the
current index), and once the history would exceed L entries both updates
evict exactly the oldest entry. -/
theorem trail_history_bounded (L : Nat) (hL : 1 ≤ L) (hist : List Nat)
    (hlen : hist.length ≤ L) (c fi : Nat) :
    (Player.updateHistory hist c L).length ≤ L ∧
    (GifExport.updateHistory hist c L).length ≤ L ∧
    (Player.trailFrames hist L).length ≤ L ∧
    (GifExport.trailFrames hist L).length ≤ L ∧
    ((Player.trailFrames hist L).filter fun h => h ≠ fi).length ≤ L ∧
    (hist.length = L →
      Player.updateHistory hist c L = hist.tail ++ [c] ∧
      GifExport.updateHistory hist c L = hist.tail ++ [c]) := by
  have htr : (Player.trailFrames hist L).length ≤ L :=
    sliceLast_length_le L hL hist
  refine ⟨sliceLast_length_le L hL _, ?_, htr, htr, ?_, ?_⟩
  · unfold GifExport.updateHistory
    by_cases h : L < (hist ++ [c]).length
    · rw [if_pos h, List.length_tail, List.length_append]
      simp only [List.length_cons, List.length_nil]
      omega
    · rw [if_neg h]
      omega
  · exact le_trans (List.length_filter_le _ _) htr
  · intro hfull
    obtain ⟨x, t, rfl⟩ : ∃ x t, hist = x :: t := by
      cases hist with
      | nil => simp at hfull; omega
      | cons x t => exact ⟨x, t, rfl⟩
    constructor
    · unfold Player.updateHistory sliceLast
      rw [if_neg (by omega)]
      have hx : ((x :: t) ++ [c]).length - L = 1 := by
        simp only [List.length_append, List.length_cons, List.length_nil]
          at hfull ⊢
        omega
      rw [hx, List.drop_one]
      rfl
    · unfold GifExport.updateHistory
      have hc : L < ((x :: t) ++ [c]).length := by
        simp only [List.length_append, List.length_cons, List.length_nil]
          at hfull ⊢
        omega
      rw [if_pos hc]
      rfl

/-- Witness for trail_history_bounded at L = 2, history [7, 8]. -/
theorem trail_history_bounded_witness :
    (1 ≤ 2 ∧ ([7, 8] : List Nat).length ≤ 2) ∧
    ((Player.updateHistory [7, 8] 9 2).length ≤ 2 ∧
      (GifExport.updateHistory [7, 8] 9 2).length ≤ 2 ∧
      (Player.trailFrames [7, 8] 2).length ≤ 2 ∧
      (GifExport.trailFrames [7, 8] 2).length ≤ 2 ∧
      ((Player.trailFrames [7, 8] 2).filter fun h => h ≠ 9).length ≤ 2 ∧
      (([7, 8] : List Nat).length = 2 →
        Player.updateHistory [7, 8] 9 2 = [8, 9] ∧
        GifExport.updateHistory [7, 8] 9 2 = [8, 9])) := by
  refine ⟨⟨by decide, by decide⟩, ?_⟩
  have h := trail_history_bounded 2 (by decide) [7, 8] (by decide) 9 9
  simpa using h

/-- Characterization of calculateAlignments when at least two images carry a
focal point: the head is the first filtered image's id with its transform
unchanged, and every further participating image is re-positioned against the
head's focal world point. -/
theorem calculateAlignments_eq (images : List FocalImage)
    (ref : FocalImage) (rest : List FocalImage)
    (hps : images.filter (fun img => img.focalPoint.isSome) = ref :: rest)
    (hrest : rest ≠ []) :
    calculateAlignments images =
      ⟨ref.id, ref.transform⟩ ::
        rest.filterMap fun image =>
          image.focalPoint.map fun fp =>
            ⟨image.id,
             { image.transform with
                position :=
                  ⟨(focalWorldAt ref.transform ref.naturalSize
                        (ref.focalPoint.getD ⟨0, 0⟩)).x
                      - (fp.x - image.naturalSize.width / 2)
                          * image.transform.scale,
                   (focalWorldAt ref.transform ref.naturalSize
                        (ref.focalPoint.getD ⟨0, 0⟩)).y
                      - (fp.y - image.naturalSize.height / 2)
                          * image.transform.scale⟩ }⟩ := by
  have h2 : ¬ (ref :: rest).length < 2 := by
    have := List.length_pos.mpr hrest
    simp only [List.length_cons]
    omega
  simp only [calculateAlignments]
  rw [hps, if_neg h2]

/-- C3 amended: the alignment engine designates as reference the first
participating image in array order (the first element of the filtered list,
not the temporally first); the shared world anchor is computed from that
reference's current placement transform, the reference's own transform is
returned unchanged as the head of the result, and every other returned
alignment keeps its image's scale and rotation while mapping its focal point
exactly onto the reference anchor. -/
theorem reference_first_participant (images : List FocalImage)
    (ref : FocalImage) (rest : List FocalImage)
    (hps : images.filter (fun img => img.focalPoint.isSome) = ref :: rest)
    (hrest : rest ≠ []) :
    (calculateAlignments images).head? = some ⟨ref.id, ref.transform⟩ ∧
    ∀ a ∈ (calculateAlignments images).tail,
      ∃ img ∈ rest,
        a.imageId = img.id ∧
        a.transform.scale = img.transform.scale ∧
        a.transform.rotation = img.transform.rotation ∧
        ∀ fp, img.focalPoint = some fp →
          focalWorldAt a.transform img.naturalSize fp
            = focalWorldAt ref.transform ref.naturalSize
                (ref.focalPoint.getD ⟨0, 0⟩) := by
  rw [calculateAlignments_eq images ref rest hps hrest]
  refine ⟨rfl, ?_⟩
  intro a ha
  simp only [List.tail_cons] at ha
  obtain ⟨img, himg, hfn⟩ := List.mem_filterMap.mp ha
  obtain ⟨fp, hfp, hval⟩ := Option.map_eq_some'.mp hfn
  subst hval
  refine ⟨img, himg, rfl, rfl, rfl, ?_⟩
  intro fp' hfp'
  have hfpeq : fp' = fp := by
    rw [hfp] at hfp'
    exact (Option.some_inj.mp hfp').symm
  subst hfpeq
  simp only [focalWorldAt, Point.mk.injEq]
  constructor <;> ring

/-- C3 counterexample: with two participating images where the array-first
image "a" has the later timestamp, the temporally first image "b" is not
chosen as reference: its returned position is moved to (10,10) (aligned to
the world point of image "a"), so the temporally-first image's transform is
not returned unchanged. -/
theorem reference_not_chosen_by_timestamp :
    c3B.timestamp < c3A.timestamp ∧
    (calculateAlignments [c3A, c3B]).map (fun a => (a.imageId, a.transform.position))
        = [("a", ⟨10, 10⟩), ("b", ⟨10, 10⟩)] ∧
    c3B.transform.position ≠ (⟨10, 10⟩ : Point) := by
  with_unfolding_all decide

/-- Witness for reference_first_participant on the two-image input. -/
theorem reference_first_participant_witness :
    [c3A, c3B].filter (fun img => img.focalPoint.isSome) = c3A :: [c3B] ∧
    ([c3B] : List FocalImage) ≠ [] ∧
    (calculateAlignments [c3A, c3B]).head? = some ⟨c3A.id, c3A.transform⟩ :=
  ⟨by with_unfolding_all decide, by decide,
   (reference_first_participant [c3A, c3B] c3A [c3B]
      (by with_unfolding_all decide) (by decide)).1⟩

/-- Replacing an image's transform by itself is the identity. -/
theorem focalImage_eta (img : FocalImage) :
    ({ img with transform := img.transform } : FocalImage) = img := rfl

/-- Replacing a transform's position by itself is the identity. -/
theorem transform_eta (t : Transform) :
    ({ t with position := t.position } : Transform) = t := rfl

/-- In a list whose keys are pairwise distinct, find? by key equality
returns exactly the member carrying that key. -/
theorem find_eq_of_nodup_keys {α : Type} (key : α → String) :
    ∀ l : List α, (l.map key).Nodup → ∀ a ∈ l,
      l.find? (fun b => key b == key a) = some a
  | [], _, a, ha => absurd ha (List.not_mem_nil a)
  | b :: t, hnd, a, ha => by
    rw [List.map_cons, List.nodup_cons] at hnd
    by_cases hba : key b = key a
    · have hab : a = b := by
        rcases List.mem_cons.mp ha with h | h
        · exact h
        · exfalso
          apply hnd.1
          rw [hba]
          exact List.mem_map_of_mem key h
      subst hab
      exact List.find?_cons_of_pos _ (by simp)
    · have hat : a ∈ t := by
        rcases List.mem_cons.mp ha with h | h
        · exact absurd (by rw [h]) hba
        · exact h
      rw [List.find?_cons_of_neg _ (by simp [hba])]
      exact find_eq_of_nodup_keys key t hnd.2 a hat

/-- When the alignment list has pairwise distinct image ids, the JavaScript
Map lookup returns each entry at its own id. -/
theorem alignmentLookup_self (l : List AlignmentResult)
    (hnd : (l.map (fun a => a.imageId)).Nodup) (a : AlignmentResult)
    (ha : a ∈ l) : alignmentLookup l a.imageId = some a := by
  unfold alignmentLookup
  have hnd' : (l.reverse.map (fun a => a.imageId)).Nodup := by
    rw [List.map_reverse]
    exact List.nodup_reverse.mpr hnd
  exact find_eq_of_nodup_keys (fun a => a.imageId) l.reverse hnd' a
    (List.mem_reverse.mpr ha)

/-- Two members of a list with pairwise distinct ids and equal ids are the
same member. -/
theorem eq_of_mem_of_nodup_ids :
    ∀ l : List FocalImage, (l.map (fun i => i.id)).Nodup →
      ∀ a ∈ l, ∀ b ∈ l, a.id = b.id → a = b
  | [], _, a, ha, _, _, _ => absurd ha (List.not_mem_nil a)
  | x :: t, hnd, a, ha, b, hb, hid => by
    rw [List.map_cons, List.nodup_cons] at hnd
    rcases List.mem_cons.mp ha with h1 | h1
    · rcases List.mem_cons.mp hb with h2 | h2
      · rw [h1, h2]
      · exfalso
        apply hnd.1
        rw [h1] at hid
        rw [hid]
        exact List.mem_map_of_mem _ h2
    · rcases List.mem_cons.mp hb with h2 | h2
      · exfalso
        apply hnd.1
        rw [h2] at hid
        rw [← hid]
        exact List.mem_map_of_mem _ h1
      · exact eq_of_mem_of_nodup_ids t hnd.2 a h1 b h2 hid

/-- Over a list whose members all carry a focal point, the filterMap through
focalPoint.map collapses to a plain map reading the focal point with getD. -/
theorem filterMap_focal_eq_map {β : Type} (g : FocalImage → Point → β) :
    ∀ l : List FocalImage, (∀ x ∈ l, x.focalPoint.isSome) →
      (l.filterMap fun image => image.focalPoint.map fun fp => g image fp)
        = l.map fun image => g image (image.focalPoint.getD ⟨0, 0⟩)
  | [], _ => rfl
  | x :: t, h => by
    obtain ⟨fp, hfp⟩ :=
      Option.isSome_iff_exists.mp (h x (List.mem_cons_self x t))
    simp only [List.filterMap_cons, List.map_cons, hfp, Option.map_some',
      Option.getD_some]
    rw [filterMap_focal_eq_map g t fun y hy => h y (List.mem_cons_of_mem x hy)]

/-- If every computed alignment hands an image in the list its own current
transform, applying autoAlignImages changes nothing (given pairwise distinct
ids, so the JavaScript Map lookup resolves to the right record). -/
theorem autoAlign_fixed (l : List FocalImage)
    (hnd : (l.map (fun i => i.id)).Nodup)
    (hal : ∀ a ∈ calculateAlignments l, ∃ q ∈ l, a = ⟨q.id, q.transform⟩) :
    autoAlignImages l = l := by
  simp only [autoAlignImages]
  by_cases h0 : (calculateAlignments l).length = 0
  · rw [if_pos h0]
  · rw [if_neg h0]
    refine Eq.trans (List.map_congr_left ?_) (List.map_id l)
    intro y hy
    show (match alignmentLookup (calculateAlignments l) y.id with
      | some alignment => { y with transform := alignment.transform }
      | none => y) = y
    cases hlk : alignmentLookup (calculateAlignments l) y.id with
    | none => rfl
    | some a =>
      have hmem : a ∈ (calculateAlignments l).reverse :=
        List.mem_of_find?_eq_some hlk
      have haid : a.imageId = y.id := by simpa using List.find?_some hlk
      obtain ⟨q, hq, rfl⟩ := hal a (List.mem_reverse.mp hmem)
      have hqy : q = y :=
        eq_of_mem_of_nodup_ids l hnd q hq y hy (by simpa using haid)
      subst hqy
      exact focalImage_eta q

/-- The characterization of calculateAlignments restated through
solvedAlignment. -/
theorem calculateAlignments_eq_solved (images : List FocalImage)
    (ref : FocalImage) (rest : List FocalImage)
    (hps : images.filter (fun img => img.focalPoint.isSome) = ref :: rest)
    (hrest : rest ≠ []) :
    calculateAlignments images =
      ⟨ref.id, ref.transform⟩ ::
        rest.filterMap fun image =>
          image.focalPoint.map fun fp => solvedAlignment ref image fp :=
  (calculateAlignments_eq images ref rest hps hrest).trans rfl

/-- applyOne never changes the image id. -/
theorem applyOne_id (A : List AlignmentResult) (image : FocalImage) :
    (applyOne A image).id = image.id := by
  unfold applyOne
  cases alignmentLookup A image.id <;> rfl

/-- applyOne never changes the focal point. -/
theorem applyOne_focalPoint (A : List AlignmentResult) (image : FocalImage) :
    (applyOne A image).focalPoint = image.focalPoint := by
  unfold applyOne
  cases alignmentLookup A image.id <;> rfl

/-- applyOne never changes the natural size. -/
theorem applyOne_naturalSize (A : List AlignmentResult) (image : FocalImage) :
    (applyOne A image).naturalSize = image.naturalSize := by
  unfold applyOne
  cases alignmentLookup A image.id <;> rfl

/-- applyOne on a map hit replaces exactly the transform. -/
theorem applyOne_of_lookup (A : List AlignmentResult) (image : FocalImage)
    (a : AlignmentResult) (h : alignmentLookup A image.id = some a) :
    applyOne A image = { image with transform := a.transform } := by
  unfold applyOne
  rw [h]

/-- autoAlignImages is the lookup-and-replace map once any alignment was
computed. -/
theorem autoAlignImages_eq_apply (l : List FocalImage)
    (h : ¬ (calculateAlignments l).length = 0) :
    autoAlignImages l = applyAlignments (calculateAlignments l) l := by
  simp only [autoAlignImages, applyAlignments]
  rw [if_neg h]
  rfl

/-- C5: alignment is idempotent: for every image list with pairwise distinct
ids (the data model's stable-identifier invariant, needed because the
alignment result is applied through an id-keyed map), running autoAlignImages
on the output of autoAlignImages returns that output unchanged, so re-running
alignment on an already-aligned set produces no further position change. -/
theorem autoAlign_idempotent (images : List FocalImage)
    (hnd : (images.map (fun i => i.id)).Nodup) :
    autoAlignImages (autoAlignImages images) = autoAlignImages images := by
  by_cases hlen : (images.filter fun img => img.focalPoint.isSome).length < 2
  · have hA : calculateAlignments images = [] := by
      simp only [calculateAlignments]
      rw [if_pos hlen]
    have hfix : autoAlignImages images = images := by
      simp [autoAlignImages, hA]
    rw [hfix, hfix]
  · obtain ⟨ref, rest, hps⟩ : ∃ ref rest,
        images.filter (fun img => img.focalPoint.isSome) = ref :: rest := by
      cases hfl : images.filter (fun img => img.focalPoint.isSome) with
      | nil => rw [hfl] at hlen; simp at hlen
      | cons a t => exact ⟨a, t, rfl⟩
    have hrest : rest ≠ [] := by
      intro h0
      apply hlen
      rw [hps, h0]
      simp
    have hrestFocal : ∀ x ∈ rest, x.focalPoint.isSome := by
      intro x hx
      have hxf : x ∈ images.filter (fun img => img.focalPoint.isSome) := by
        rw [hps]; exact List.mem_cons_of_mem ref hx
      have hpx := List.of_mem_filter hxf
      exact hpx
    have hA2 : calculateAlignments images
        = ⟨ref.id, ref.transform⟩ :: rest.map (fun image =>
            solvedAlignment ref image (image.focalPoint.getD ⟨0, 0⟩)) := by
      rw [calculateAlignments_eq_solved images ref rest hps hrest]
      congr 1
      exact filterMap_focal_eq_map (solvedAlignment ref) rest hrestFocal
    have hAne : ¬ (calculateAlignments images).length = 0 := by
      rw [hA2]; simp
    have hr : autoAlignImages images
        = applyAlignments (calculateAlignments images) images :=
      autoAlignImages_eq_apply images hAne
    have hAkeys : (calculateAlignments images).map (fun a => a.imageId)
        = (ref :: rest).map (fun i => i.id) := by
      rw [hA2, List.map_cons, List.map_cons, List.map_map]
      rfl
    have hndA : ((calculateAlignments images).map (fun a => a.imageId)).Nodup := by
      rw [hAkeys, ← hps]
      exact List.Nodup.sublist
        (List.Sublist.map _ (List.filter_sublist images)) hnd
    have he0mem : (⟨ref.id, ref.transform⟩ : AlignmentResult)
        ∈ calculateAlignments images := by
      rw [hA2]; exact List.mem_cons_self _ _
    have hgref : applyOne (calculateAlignments images) ref = ref := by
      rw [applyOne_of_lookup _ _ _ (alignmentLookup_self _ hndA _ he0mem)]
    have hgx : ∀ x ∈ rest, applyOne (calculateAlignments images) x
        = { x with transform :=
              (solvedAlignment ref x (x.focalPoint.getD ⟨0, 0⟩)).transform } := by
      intro x hx
      have hmem : solvedAlignment ref x (x.focalPoint.getD ⟨0, 0⟩)
          ∈ calculateAlignments images := by
        rw [hA2]
        exact List.mem_cons_of_mem _ (List.mem_map_of_mem _ hx)
      exact applyOne_of_lookup _ _ _ (alignmentLookup_self _ hndA _ hmem)
    have hfilter_r : (autoAlignImages images).filter
          (fun img => img.focalPoint.isSome)
        = ref :: rest.map (applyOne (calculateAlignments images)) := by
      rw [hr]
      show (images.map (applyOne (calculateAlignments images))).filter
          (fun img => img.focalPoint.isSome) = _
      rw [List.filter_map]
      rw [List.filter_congr
        (fun a _ => by
          show ((fun img => img.focalPoint.isSome)
              ∘ applyOne (calculateAlignments images)) a
            = (fun img => img.focalPoint.isSome) a
          simp only [Function.comp_apply]
          rw [applyOne_focalPoint])]
      rw [hps, List.map_cons, hgref]
    have hrest' : rest.map (applyOne (calculateAlignments images)) ≠ [] := by
      simp [hrest]
    have hA' := calculateAlignments_eq_solved (autoAlignImages images) ref
      (rest.map (applyOne (calculateAlignments images))) hfilter_r hrest'
    have hal' : ∀ a ∈ calculateAlignments (autoAlignImages images),
        ∃ q ∈ autoAlignImages images, a = ⟨q.id, q.transform⟩ := by
      intro a ha
      rw [hA'] at ha
      rcases List.mem_cons.mp ha with h | h
      · have hrefr : ref ∈ autoAlignImages images := by
          apply List.mem_of_mem_filter (p := fun img => img.focalPoint.isSome)
          rw [hfilter_r]
          exact List.mem_cons_self _ _
        exact ⟨ref, hrefr, h⟩
      · obtain ⟨y, hy, hfn⟩ := List.mem_filterMap.mp h
        obtain ⟨fpy, hfpy, hval⟩ := Option.map_eq_some'.mp hfn
        have hyr : y ∈ autoAlignImages images := by
          apply List.mem_of_mem_filter (p := fun img => img.focalPoint.isSome)
          rw [hfilter_r]
          exact List.mem_cons_of_mem _ hy
        refine ⟨y, hyr, ?_⟩
        subst hval
        obtain ⟨x, hx, hxy⟩ := List.mem_map.mp hy
        obtain ⟨fpx, hfpx⟩ := Option.isSome_iff_exists.mp (hrestFocal x hx)
        have hyx : y = { x with transform :=
            (solvedAlignment ref x (x.focalPoint.getD ⟨0, 0⟩)).transform } := by
          rw [← hxy, hgx x hx]
        have hfpyx : x.focalPoint = some fpy := by
          rw [hyx] at hfpy
          exact hfpy
        have hfpeq : fpy = fpx := by
          rw [hfpx] at hfpyx
          exact (Option.some_inj.mp hfpyx).symm
        have hgd : x.focalPoint.getD ⟨0, 0⟩ = fpx := by
          rw [hfpx]
          rfl
        rw [hyx, hfpeq, ← hgd]
        rfl
    have hnd_r : ((autoAlignImages images).map (fun i => i.id)).Nodup := by
      have hids : (autoAlignImages images).map (fun i => i.id)
          = images.map (fun i => i.id) := by
        rw [hr]
        show (images.map (applyOne (calculateAlignments images))).map
            (fun i => i.id) = _
        rw [List.map_map]
        exact List.map_congr_left fun a _ => applyOne_id _ a
      rw [hids]
      exact hnd
    exact autoAlign_fixed (autoAlignImages images) hnd_r hal'

/-- Witness for autoAlign_idempotent on the three-image scenario list. -/
theorem autoAlign_idempotent_witness :
    (c2images.map (fun i => i.id)).Nodup ∧
    autoAlignImages (autoAlignImages c2images) = autoAlignImages c2images :=
  ⟨by with_unfolding_all decide,
   autoAlign_idempotent c2images (by with_unfolding_all decide)⟩

/-- A filter whose predicate respects a relation preserves Forall₂. -/
theorem filter_forall₂ {α : Type} (R : α → α → Prop) (p : α → Bool)
    (hp : ∀ a b, R a b → p a = p b) :
    ∀ l₁ l₂, List.Forall₂ R l₁ l₂ →
      List.Forall₂ R (l₁.filter p) (l₂.filter p) := by
  intro l₁ l₂ h
  induction h with
  | nil => exact List.Forall₂.nil
  | @cons a b t₁ t₂ hab htl ih =>
    simp only [List.filter_cons, ← hp a b hab]
    by_cases hpa : p a
    · simp only [hpa, if_true]
      exact List.Forall₂.cons hab ih
    · simp only [hpa, Bool.false_eq_true, if_false]
      exact ih

/-- filterMap with functions that agree across a relation gives equal
outputs on related lists. -/
theorem filterMap_congr_forall₂ {α β : Type} (R : α → α → Prop)
    (f g : α → Option β) (hfg : ∀ a b, R a b → f a = g b) :
    ∀ l₁ l₂, List.Forall₂ R l₁ l₂ → l₁.filterMap f = l₂.filterMap g := by
  intro l₁ l₂ h
  induction h with
  | nil => rfl
  | @cons a b t₁ t₂ hab htl ih =>
    simp only [List.filterMap_cons, hfg a b hab, ih]

/-- map with a function that respects a relation sends related lists to the
same list. -/
theorem forall₂_map_eq {α β : Type} (R : α → α → Prop) (f : α → β)
    (hf : ∀ a b, R a b → f a = f b) :
    ∀ l₁ l₂, List.Forall₂ R l₁ l₂ → l₁.map f = l₂.map f := by
  intro l₁ l₂ h
  induction h with
  | nil => rfl
  | @cons a b t₁ t₂ hab htl ih =>
    simp only [List.map_cons, hf a b hab, ih]

/-- calculateAlignments reads only the id, placement transform, focal point
and natural size of each record: lists that agree on those fields pointwise
produce identical alignment results. -/
theorem calculateAlignments_congr (l₁ l₂ : List FocalImage)
    (h : List.Forall₂ (fun a b => a.id = b.id ∧ a.transform = b.transform
        ∧ a.focalPoint = b.focalPoint ∧ a.naturalSize = b.naturalSize) l₁ l₂) :
    calculateAlignments l₁ = calculateAlignments l₂ := by
  have hps := filter_forall₂ _ (fun img => img.focalPoint.isSome)
    (fun a b hab => by simp only [hab.2.2.1]) l₁ l₂ h
  have hlen : (l₁.filter fun img => img.focalPoint.isSome).length
      = (l₂.filter fun img => img.focalPoint.isSome).length :=
    hps.length_eq
  by_cases hsmall : (l₁.filter fun img => img.focalPoint.isSome).length < 2
  · have h1 : calculateAlignments l₁ = [] := by
      simp only [calculateAlignments]
      rw [if_pos hsmall]
    have h2 : calculateAlignments l₂ = [] := by
      simp only [calculateAlignments]
      rw [if_pos (hlen ▸ hsmall)]
    rw [h1, h2]
  · obtain ⟨r₁, x₁, t₁, hc1⟩ : ∃ r x t,
        l₁.filter (fun img => img.focalPoint.isSome) = r :: x :: t := by
      cases hf1 : l₁.filter (fun img => img.focalPoint.isSome) with
      | nil => rw [hf1] at hsmall; simp at hsmall
      | cons r rest =>
        cases rest with
        | nil => rw [hf1] at hsmall; simp at hsmall
        | cons x t => exact ⟨r, x, t, rfl⟩
    obtain ⟨r₂, x₂, t₂, hc2⟩ : ∃ r x t,
        l₂.filter (fun img => img.focalPoint.isSome) = r :: x :: t := by
      cases hf2 : l₂.filter (fun img => img.focalPoint.isSome) with
      | nil => rw [hf2, hc1] at hlen; simp at hlen
      | cons r rest =>
        cases rest with
        | nil => rw [hf2, hc1] at hlen; simp at hlen
        | cons x t => exact ⟨r, x, t, rfl⟩
    rw [hc1, hc2] at hps
    rcases List.forall₂_cons.mp hps with ⟨hr, htail⟩
    have hrefW : focalWorldAt r₁.transform r₁.naturalSize
          (r₁.focalPoint.getD ⟨0, 0⟩)
        = focalWorldAt r₂.transform r₂.naturalSize
            (r₂.focalPoint.getD ⟨0, 0⟩) := by
      rw [hr.2.1, hr.2.2.1, hr.2.2.2]
    rw [calculateAlignments_eq_solved l₁ r₁ (x₁ :: t₁) hc1 (by simp),
      calculateAlignments_eq_solved l₂ r₂ (x₂ :: t₂) hc2 (by simp)]
    congr 1
    · rw [hr.1, hr.2.1]
    · apply filterMap_congr_forall₂ _ _ _ ?_ _ _ htail
      intro a b hab
      rw [hab.2.2.1]
      congr 1
      funext fp
      unfold solvedAlignment
      rw [hab.1, hab.2.1, hab.2.2.2, hrefW]

/-- C10: alignment output is independent of internal-frame settings: for any
modification touching only imageZoom, imageOffset and opacity (preserving id,
placement transform, focal point and natural size), calculateAlignments is
unchanged and autoAlignImages returns the same transforms. -/
theorem alignment_ignores_frame_settings (images : List FocalImage)
    (f : FocalImage → FocalImage)
    (hf : ∀ im ∈ images, (f im).id = im.id ∧ (f im).transform = im.transform
        ∧ (f im).focalPoint = im.focalPoint
        ∧ (f im).naturalSize = im.naturalSize) :
    calculateAlignments (images.map f) = calculateAlignments images ∧
    (autoAlignImages (images.map f)).map (fun i => i.transform)
      = (autoAlignImages images).map (fun i => i.transform) := by
  have hK : List.Forall₂ (fun a b => a.id = b.id ∧ a.transform = b.transform
      ∧ a.focalPoint = b.focalPoint ∧ a.naturalSize = b.naturalSize)
      (images.map f) images := by
    rw [List.forall₂_map_left_iff]
    exact List.forall₂_same.mpr hf
  have h1 : calculateAlignments (images.map f) = calculateAlignments images :=
    calculateAlignments_congr _ _ hK
  refine ⟨h1, ?_⟩
  simp only [autoAlignImages, h1]
  by_cases h0 : (calculateAlignments images).length = 0
  · rw [if_pos h0, if_pos h0, List.map_map]
    exact List.map_congr_left fun a ha => (hf a ha).2.1
  · rw [if_neg h0, if_neg h0, List.map_map, List.map_map, List.map_map]
    apply List.map_congr_left
    intro im him
    show (applyOne (calculateAlignments images) (f im)).transform
        = (applyOne (calculateAlignments images) im).transform
    unfold applyOne
    rw [(hf im him).1]
    cases alignmentLookup (calculateAlignments images) im.id with
    | some a => rfl
    | none => exact (hf im him).2.1

/-- Witness for alignment_ignores_frame_settings: changing zoom, offset and
opacity on the scenario images leaves the alignment result unchanged. -/
theorem alignment_ignores_frame_settings_witness :
    (∀ im ∈ c2images, (c10mod im).id = im.id
        ∧ (c10mod im).transform = im.transform
        ∧ (c10mod im).focalPoint = im.focalPoint
        ∧ (c10mod im).naturalSize = im.naturalSize) ∧
    calculateAlignments (c2images.map c10mod) = calculateAlignments c2images :=
  ⟨by with_unfolding_all decide,
   (alignment_ignores_frame_settings c2images c10mod
      (by with_unfolding_all decide)).1⟩

/-- orderedInsert respects Forall₂ when the comparator factors through the
relation. -/
theorem forall₂_orderedInsert {α : Type} (R : α → α → Prop)
    (r : α → α → Prop) [DecidableRel r]
    (hcomp : ∀ a b a' b', R a a' → R b b' → (r a b ↔ r a' b')) :
    ∀ (a a' : α), R a a' → ∀ l l', List.Forall₂ R l l' →
      List.Forall₂ R (List.orderedInsert r a l)
        (List.orderedInsert r a' l') := by
  intro a a' haa' l l' h
  induction h with
  | nil => exact List.Forall₂.cons haa' List.Forall₂.nil
  | @cons b b' t t' hbb' htl ih =>
    simp only [List.orderedInsert]
    by_cases hr : r a b
    · rw [if_pos hr, if_pos ((hcomp a b a' b' haa' hbb').mp hr)]
      exact List.Forall₂.cons haa' (List.Forall₂.cons hbb' htl)
    · rw [if_neg hr, if_neg fun hr' => hr ((hcomp a b a' b' haa' hbb').mpr hr')]
      exact List.Forall₂.cons hbb' ih

/-- insertionSort respects Forall₂ when the comparator factors through the
relation. -/
theorem forall₂_insertionSort {α : Type} (R : α → α → Prop)
    (r : α → α → Prop) [DecidableRel r]
    (hcomp : ∀ a b a' b', R a a' → R b b' → (r a b ↔ r a' b')) :
    ∀ l l', List.Forall₂ R l l' →
      List.Forall₂ R (List.insertionSort r l) (List.insertionSort r l') := by
  intro l l' h
  induction h with
  | nil => exact List.Forall₂.nil
  | @cons a a' t t' haa' htl ih =>
    simp only [List.insertionSort]
    exact forall₂_orderedInsert R r hcomp a a' haa' _ _ ih

/-- The stacking sort commutes with projection to (id, zIndex), since its
comparator reads the projection only: orderedInsert case. -/
theorem map_idz_orderedInsert :
    ∀ (a : FocalImage) (l : List FocalImage),
      (List.orderedInsert zLE a l).map idz
        = List.orderedInsert pzLE (idz a) (l.map idz)
  | _, [] => rfl
  | a, b :: t => by
    simp only [List.orderedInsert, List.map_cons]
    by_cases h : zLE a b
    · rw [if_pos h, if_pos (show pzLE (idz a) (idz b) from h)]
      simp only [List.map_cons]
    · rw [if_neg h, if_neg (show ¬ pzLE (idz a) (idz b) from h)]
      simp only [List.map_cons, map_idz_orderedInsert a t]

/-- The stacking sort commutes with projection to (id, zIndex). -/
theorem map_idz_insertionSort :
    ∀ l : List FocalImage,
      (List.insertionSort zLE l).map idz
        = List.insertionSort pzLE (l.map idz)
  | [] => rfl
  | a :: t => by
    simp only [List.insertionSort, List.map_cons]
    rw [map_idz_orderedInsert, map_idz_insertionSort t]

/-- Two sorted permutations of each other with pairwise distinct sort keys
are equal. -/
theorem sorted_perm_nodup_eq :
    ∀ l₁ l₂ : List (String × ℚ), l₁.Perm l₂ →
      List.Sorted pzLE l₁ → List.Sorted pzLE l₂ →
      (l₁.map Prod.snd).Nodup → l₁ = l₂
  | [], l₂, hp, _, _, _ => (hp.symm.eq_nil).symm
  | a :: t₁, l₂, hp, hs₁, hs₂, hnd => by
    cases l₂ with
    | nil => exact absurd hp.eq_nil (by simp)
    | cons b t₂ =>
      rw [List.map_cons, List.nodup_cons] at hnd
      by_cases hba : b = a
      · subst hba
        have ht := sorted_perm_nodup_eq t₁ t₂ hp.cons_inv hs₁.of_cons
          hs₂.of_cons hnd.2
        rw [ht]
      · exfalso
        have hb1 : b ∈ a :: t₁ := hp.symm.subset (List.mem_cons_self b t₂)
        have ha2 : a ∈ b :: t₂ := hp.subset (List.mem_cons_self a t₁)
        have hbt : b ∈ t₁ := by
          rcases List.mem_cons.mp hb1 with hh | hh
          · exact absurd hh hba
          · exact hh
        have hat : a ∈ t₂ := by
          rcases List.mem_cons.mp ha2 with hh | hh
          · exact absurd hh fun hh' => hba hh'.symm
          · exact hh
        have h1 : pzLE a b := List.rel_of_sorted_cons hs₁ b hbt
        have h2 : pzLE b a := List.rel_of_sorted_cons hs₂ a hat
        apply hnd.1
        have hsnd : a.2 = b.2 := le_antisymm h1 h2
        rw [hsnd]
        exact List.mem_map_of_mem Prod.snd hbt

/-- C9 amended: changing draw-order ranks leaves the playback engine's frame
sequence unchanged (the temporal sort never reads zIndex); changing temporal
ordering keys leaves the stacking order unchanged provided all draw-order
ranks are pairwise distinct.  When two images share a rank, the source breaks
the stacking tie by temporal order — the stable z sort runs on the
timestamp-sorted list — not by insertion order, so a timestamp change can
reorder equal-rank images (see the counterexample). -/
theorem sequence_stacking_independence (l₁ l₂ : List FocalImage) :
    (List.Forall₂ (fun a b => a.id = b.id ∧ a.timestamp = b.timestamp) l₁ l₂ →
      frameSequence l₁ = frameSequence l₂) ∧
    (List.Forall₂ (fun a b => a.id = b.id ∧ a.zIndex = b.zIndex) l₁ l₂ →
      (l₁.map fun i => i.zIndex).Nodup →
      stackOrder l₁ = stackOrder l₂) := by
  constructor
  · intro h
    unfold frameSequence sortByTimestamp
    apply forall₂_map_eq
      (fun a b : FocalImage => a.id = b.id ∧ a.timestamp = b.timestamp)
      (fun i => i.id) fun a b hab => hab.1
    apply forall₂_insertionSort _ tsLE ?_ _ _ h
    intro a b a' b' ha hb
    unfold tsLE
    rw [ha.2, hb.2]
  · intro h hnz
    unfold stackOrder sortByZIndex
    have hm : ∀ l : List FocalImage,
        (List.insertionSort zLE (sortByTimestamp l)).map (fun i => i.id)
          = ((List.insertionSort zLE (sortByTimestamp l)).map idz).map
              Prod.fst := by
      intro l
      rw [List.map_map]
      rfl
    rw [hm l₁, hm l₂, map_idz_insertionSort, map_idz_insertionSort]
    congr 1
    haveI : IsTotal (String × ℚ) pzLE := ⟨fun p q => le_total p.2 q.2⟩
    haveI : IsTrans (String × ℚ) pzLE := ⟨fun p q s h1 h2 => le_trans h1 h2⟩
    have hproj : l₁.map idz = l₂.map idz :=
      forall₂_map_eq _ idz
        (fun a b hab => by unfold idz; rw [hab.1, hab.2]) _ _ h
    have hperm1 : (List.insertionSort pzLE
          ((sortByTimestamp l₁).map idz)).Perm (l₁.map idz) :=
      (List.perm_insertionSort pzLE _).trans
        ((List.perm_insertionSort tsLE l₁).map idz)
    have hperm2 : (List.insertionSort pzLE
          ((sortByTimestamp l₂).map idz)).Perm (l₂.map idz) :=
      (List.perm_insertionSort pzLE _).trans
        ((List.perm_insertionSort tsLE l₂).map idz)
    rw [← hproj] at hperm2
    apply sorted_perm_nodup_eq
    · exact hperm1.trans hperm2.symm
    · exact List.sorted_insertionSort pzLE _
    · exact List.sorted_insertionSort pzLE _
    · have hsnd := hperm1.map Prod.snd
      rw [List.map_map] at hsnd
      exact (hsnd.symm).nodup hnz

/-- C9 counterexample: images "a" and "b" overlap spatially (same position
and size) and share draw rank 0; changing only the temporal key of "a" from
0 to 2 flips the stacking order from [a, b] to [b, a], because the stable
zIndex sort runs on the timestamp-sorted list and thus breaks rank ties by
temporal order, not insertion order. -/
theorem timestamp_change_alters_stacking :
    c9X2 = { c9X with timestamp := 2 } ∧
    stackOrder [c9X, c9Y] = ["a", "b"] ∧
    stackOrder [c9X2, c9Y] = ["b", "a"] ∧
    (["a", "b"] : List String) ≠ ["b", "a"] := by
  with_unfolding_all decide

/-- Witness for sequence_stacking_independence: changing the draw rank of
image "a" from 0 to 5 leaves the frame sequence unchanged. -/
theorem sequence_stacking_independence_witness :
    List.Forall₂
      (fun a b : FocalImage => a.id = b.id ∧ a.timestamp = b.timestamp)
      [c9X, c9Y] [c9Xz, c9Y] ∧
    frameSequence [c9X, c9Y] = frameSequence [c9Xz, c9Y] := by
  have hf : List.Forall₂
      (fun a b : FocalImage => a.id = b.id ∧ a.timestamp = b.timestamp)
      [c9X, c9Y] [c9Xz, c9Y] := by
    refine List.Forall₂.cons ⟨?_, ?_⟩
      (List.Forall₂.cons ⟨?_, ?_⟩ List.Forall₂.nil) <;>
      with_unfolding_all decide
  exact ⟨hf, (sequence_stacking_independence [c9X, c9Y] [c9Xz, c9Y]).1 hf⟩

end FocalFlow
